import Mathlib

/-!
Verification of the Graph Reasoning & Temporal Versioning Core.

The definitions below are shallow embeddings of the Python sources:
* `SrcEngine`      — src/src/core/reasoning/engine.py (groundedness validation)
* `NxoEngine`      — src/nxo/core/reasoning_engine.py (query-to-subgraph pipeline)
* `SrcVersioning`  — src/src/core/versioning/manager.py (per-graph version history)
* `NxoVersioning`  — src/nxo/core/versioning.py (version diffing)

Floating-point scores are embedded as rationals (`ℚ`), the wall clock as an
explicit `Nat` parameter, and fallible store calls as `Except`-valued fields of
an explicit store-client record.
-/

namespace SrcEngine

/-- Node attribute record of a networkx node: the well-known optional
properties consulted by the validator (`source`, `timestamp`, `verified`). -/
structure NodeData where
  source : Option String
  timestamp : Option String
  verified : Option Bool
deriving Repr, DecidableEq

/-- A networkx `MultiDiGraph` as consumed by `validate_subgraph`: node
identifiers with their attribute records, and directed edges as id pairs. -/
structure Subgraph where
  nodes : List (String × NodeData)
  edges : List (String × String)
deriving Repr, DecidableEq

def nodeIds (g : Subgraph) : List String := g.nodes.map Prod.fst

/-- Undirected adjacency induced by the directed edge list (weak connectivity
ignores edge direction). -/
def adjacentB (g : Subgraph) (a b : String) : Bool :=
  g.edges.any (fun e => (e.1 == a && e.2 == b) || (e.1 == b && e.2 == a))

/-- One closure step: add every node adjacent to the current set. -/
def reachStep (g : Subgraph) (s : List String) : List String :=
  (s ++ (nodeIds g).filter (fun v => s.any (fun u => adjacentB g v u))).dedup

/-- Nodes weakly reachable from `v`: iterating the closure step once per node
of the graph reaches a fixed point (undirected distances are below the node
count). -/
def reachSet (g : Subgraph) (v : String) : List String :=
  (reachStep g)^[(nodeIds g).length] [v]

/-- Size of the weakly connected component containing `v`. -/
def compSize (g : Subgraph) (v : String) : Nat := (reachSet g v).length

/-- `max(len(c) for c in weakly_connected_components(g))`. -/
def largest_component_size (g : Subgraph) : Nat :=
  ((nodeIds g).map (compSize g)).foldr max 0

/-- `nx.is_weakly_connected`: the graph has exactly one weak component,
i.e. every node is weakly reachable from the first one. -/
def is_weakly_connected (g : Subgraph) : Bool :=
  match nodeIds g with
  | [] => false
  | v :: _ => (nodeIds g).all (fun u => (reachSet g v).contains u)

/-- Count of required metadata fields present among `{source, timestamp}`. -/
def presentFields (d : NodeData) : Nat :=
  (if d.source.isSome then 1 else 0) + (if d.timestamp.isSome then 1 else 0)

/-- `_score_metadata_completeness`: accumulate `present_fields / 2` per node,
then divide by the node count. -/
def score_metadata_completeness (g : Subgraph) : ℚ :=
  if g.nodes.length = 0 then 0
  else (g.nodes.foldl (fun acc p => acc + (presentFields p.2 : ℚ) / 2) 0) / g.nodes.length

/-- `_score_connectivity`: `1.0` when weakly connected, otherwise the largest
component size over the node count. -/
def score_connectivity (g : Subgraph) : ℚ :=
  if g.nodes.length = 0 then 0
  else if is_weakly_connected g then 1
  else (largest_component_size g : ℚ) / (g.nodes.length : ℚ)

/-- Truthiness of `node_data.get("verified", False)`. -/
def verifiedFlag (d : NodeData) : Bool := d.verified.getD false

/-- `_score_source_verification`: count nodes with a true `verified` property,
then divide by the node count. -/
def score_source_verification (g : Subgraph) : ℚ :=
  if g.nodes.length = 0 then 0
  else ((g.nodes.foldl (fun acc p => if verifiedFlag p.2 then acc + 1 else acc) (0 : ℕ) : ℕ) : ℚ) / g.nodes.length

/-- `_calculate_groundedness`: the fixed weighted sum of the three component
scores, clamped to `[0, 1]`. -/
def calculate_groundedness (g : Subgraph) : ℚ :=
  if g.nodes.length = 0 then 0
  else
    min 1 (max 0 (4/10 * score_metadata_completeness g
      + 3/10 * score_connectivity g + 3/10 * score_source_verification g))

/-- The validation metadata dictionary returned by `validate_subgraph`. -/
structure ValidationResult where
  is_valid : Bool
  groundedness_score : ℚ
  issues : List String
  warnings : List String
deriving Repr, DecidableEq

/-- A validation rule record; only its `type` key is ever read. -/
structure Rule where
  rule_type : Option String
deriving Repr, DecidableEq

structure RuleResult where
  passed : Bool
  issues : List String
deriving Repr, DecidableEq

/-- `_apply_validation_rule`: rule kinds are not implemented yet, every rule
passes with no issues (the TODO stub in the source). -/
def apply_validation_rule (_g : Subgraph) (_r : Rule) : RuleResult := ⟨true, []⟩

/-- Engine configuration: the rule list given at construction and the
groundedness threshold (default `0.7`). -/
structure Engine where
  validation_rules : List Rule
  groundedness_threshold : ℚ
deriving Repr, DecidableEq

def defaultEngine : Engine := ⟨[], 7/10⟩

/-- The below-threshold issue text (decimal formatting of the f-string is
abstracted to the exact rational). -/
def groundedness_issue (score threshold : ℚ) : String :=
  "Groundedness score " ++ toString score ++ " below threshold " ++ toString threshold

/-- `validate_subgraph`: empty graphs short-circuit as invalid; otherwise the
groundedness gate and the rule hook both contribute to validity. -/
def validate_subgraph (eng : Engine) (g : Subgraph) : Bool × ValidationResult :=
  if g.nodes.length = 0 then
    (false, ⟨false, 0, ["Empty subgraph"], []⟩)
  else
    let groundedness := calculate_groundedness g
    let issues1 : List String :=
      if groundedness < eng.groundedness_threshold then
        [groundedness_issue groundedness eng.groundedness_threshold]
      else []
    let valid1 : Bool := !(decide (groundedness < eng.groundedness_threshold))
    let folded := eng.validation_rules.foldl
      (fun (acc : Bool × List String) r =>
        let res := apply_validation_rule g r
        if res.passed then acc else (false, acc.2 ++ res.issues))
      (valid1, issues1)
    let final_valid := folded.1 && decide (eng.groundedness_threshold ≤ groundedness)
    (final_valid, ⟨final_valid, groundedness, folded.2, []⟩)

/-- Metadata completeness as the specification words it: the mean, over all
nodes, of (count of required fields present) / 2. -/
def specCompleteness (g : Subgraph) : ℚ :=
  (g.nodes.map (fun p => (presentFields p.2 : ℚ) / 2)).sum / g.nodes.length

/-- Connectivity as the specification words it: `1.0` for a weakly connected
subgraph, otherwise largest-component size over node count. -/
def specConnectivity (g : Subgraph) : ℚ :=
  if is_weakly_connected g then 1
  else (largest_component_size g : ℚ) / (g.nodes.length : ℚ)

/-- Source verification as the specification words it: the fraction of nodes
whose `verified` property is true. -/
def specVerification (g : Subgraph) : ℚ :=
  ((g.nodes.filter (fun p => verifiedFlag p.2)).length : ℚ) / g.nodes.length

/-- The two-node scenario of the specification: `n1` verified with both
required fields, `n2` bare, one edge `n1 → n2`. -/
def scenarioGraph : Subgraph :=
  ⟨[("n1", ⟨some "s", some "t", some true⟩), ("n2", ⟨none, none, none⟩)], [("n1", "n2")]⟩

theorem foldl_add_div_two (l : List (String × NodeData)) (a : ℚ) :
    l.foldl (fun acc p => acc + (presentFields p.2 : ℚ) / 2) a
      = a + (l.map (fun p => (presentFields p.2 : ℚ) / 2)).sum := by
  induction l generalizing a with
  | nil => simp
  | cons x xs ih => simp [List.foldl_cons, ih]; ring

theorem foldl_count_verified (l : List (String × NodeData)) (a : ℕ) :
    l.foldl (fun acc p => if verifiedFlag p.2 then acc + 1 else acc) a
      = a + (l.filter (fun p => verifiedFlag p.2)).length := by
  induction l generalizing a with
  | nil => simp
  | cons x xs ih =>
    by_cases h : verifiedFlag x.2
    · simp [List.foldl_cons, h, ih]; omega
    · simp [List.foldl_cons, h, ih]

end SrcEngine

namespace SrcEngine

/-- C1: for every non-empty subgraph the groundedness score is the fixed
weighted sum `0.4·completeness + 0.3·connectivity + 0.3·verification` of the
specification's three component scores, clamped to `[0,1]`; and on the seed
scenario (`n1` verified with `source` and `timestamp`, bare `n2`, one edge
`n1 → n2`) validation yields score `0.65` and `is_valid = false` under the
default threshold `0.7`. -/
theorem groundedness_weighted_sum :
    (∀ g : Subgraph, g.nodes ≠ [] →
      calculate_groundedness g
        = min 1 (max 0 (4/10 * specCompleteness g + 3/10 * specConnectivity g
            + 3/10 * specVerification g)))
    ∧ validate_subgraph defaultEngine scenarioGraph
        = (false, ⟨false, 13/20, [groundedness_issue (13/20) (7/10)], []⟩) := by
  constructor
  · intro g hg
    have hn : g.nodes.length ≠ 0 := by simpa using hg
    unfold calculate_groundedness score_metadata_completeness score_connectivity
      score_source_verification specCompleteness specConnectivity specVerification
    simp [hn, foldl_add_div_two, foldl_count_verified]
  · have h1 : score_metadata_completeness scenarioGraph = 1/2 := by
      unfold score_metadata_completeness scenarioGraph presentFields
      norm_num [List.foldl_cons]
    have h2 : is_weakly_connected scenarioGraph = true := by decide
    have h3 : score_connectivity scenarioGraph = 1 := by
      unfold score_connectivity
      rw [h2]
      norm_num [scenarioGraph]
    have h4 : score_source_verification scenarioGraph = 1/2 := by
      unfold score_source_verification scenarioGraph verifiedFlag
      norm_num [List.foldl_cons]
    have h5 : calculate_groundedness scenarioGraph = 13/20 := by
      unfold calculate_groundedness
      rw [h1, h3, h4]
      norm_num [scenarioGraph]
    unfold validate_subgraph
    rw [h5]
    norm_num [scenarioGraph, defaultEngine, groundedness_issue]

/-- Witness for C1: the weighted-sum characterisation instantiated on the
non-empty scenario graph. -/
theorem groundedness_weighted_sum_witness :
    calculate_groundedness scenarioGraph
      = min 1 (max 0 (4/10 * specCompleteness scenarioGraph
          + 3/10 * specConnectivity scenarioGraph + 3/10 * specVerification scenarioGraph)) :=
  groundedness_weighted_sum.1 scenarioGraph (by decide)

/-- C6: validating an empty subgraph returns a normal result (no error is
possible: the validator is a total function), with `is_valid = false`, score
`0.0` and the single issue "Empty subgraph", independently of the engine's
rules and threshold (no further scoring is computed). -/
theorem empty_subgraph_result (eng : Engine) (g : Subgraph) (h : g.nodes = []) :
    validate_subgraph eng g = (false, ⟨false, 0, ["Empty subgraph"], []⟩) := by
  unfold validate_subgraph
  simp [h]

/-- Witness for C6: the empty subgraph under the default engine. -/
theorem empty_subgraph_result_witness :
    validate_subgraph defaultEngine ⟨[], []⟩ = (false, ⟨false, 0, ["Empty subgraph"], []⟩) :=
  empty_subgraph_result defaultEngine ⟨[], []⟩ rfl

end SrcEngine

namespace NxoEngine

/-- The node property keys read by the pipeline (`valid_until`, `source`);
`valid_until` values are compared as (timestamp) strings. -/
structure NProps where
  valid_until : Option String
  source : Option String
deriving Repr, DecidableEq

/-- A node record as returned by the store client. -/
structure PNode where
  id : String
  type : Option String
  properties : NProps
deriving Repr, DecidableEq

/-- An edge record; only `source` and `target` are read by the engine. -/
structure PEdge where
  source : String
  target : String
deriving Repr, DecidableEq

/-- The graph-database client consumed by the engine; each call may fail
(a raised exception is an `error` value). `get_node` may also succeed with no
node (`ok none`). -/
structure GraphDB where
  search_nodes : String → String → Except String (List PNode)
  get_node_edges : String → String → Except String (List PEdge)
  get_node : String → String → Except String (Option PNode)

/-- `_extract_query_concepts`: empty or all-whitespace queries yield no
concepts; otherwise lower-case whitespace tokens. -/
def extract_query_concepts (query : String) : List String :=
  if query = "" || query.trim = "" then []
  else (((query.toLower).split Char.isWhitespace).map String.trim).filter (· != "")

/-- Inner accumulation of `_find_relevant_nodes`: append a found node unless
its id is falsy or already in the `seen_node_ids` set. -/
def frnInner (acc2 : List PNode × List String) (node : PNode) :
    List PNode × List String :=
  if node.id ≠ "" ∧ ¬ acc2.2.contains node.id then
    (acc2.1 ++ [node], acc2.2 ++ [node.id])
  else acc2

/-- Per-concept step of `_find_relevant_nodes`: falsy concepts are skipped and
a failed search logs a warning and leaves the accumulator unchanged. -/
def frnStep (db : GraphDB) (graph_id : String)
    (acc : List PNode × List String) (concept : String) :
    List PNode × List String :=
  if concept = "" then acc
  else
    match db.search_nodes graph_id concept with
    | .error _ => acc
    | .ok matching => matching.foldl frnInner acc

/-- `_find_relevant_nodes`: per-concept store search, deduplicating by node id
(the accumulator carries the node list and the `seen_node_ids` set). -/
def find_relevant_nodes (db : GraphDB) (graph_id : String) (concepts : List String) :
    List PNode :=
  (concepts.foldl (frnStep db graph_id) ([], [])).1

/-- The recognised filter keys; an absent key (`none`) leaves that stage out. -/
structure Filters where
  valid_until : Option String
  node_types : Option (List (Option String))
  sources : Option (List (Option String))
deriving Repr, DecidableEq

/-- Temporal stage: keep a node when it has no `valid_until` property or its
`valid_until` is strictly greater than the cutoff. -/
def keepValidUntil (cutoff : String) (n : PNode) : Bool :=
  match n.properties.valid_until with
  | none => true
  | some v => decide (cutoff < v)

/-- Type stage: keep a node when its `type` is among the allowed ones. -/
def keepType (allowed : List (Option String)) (n : PNode) : Bool :=
  allowed.contains n.type

/-- Source stage: keep a node when its `properties.source` is among the
allowed ones. -/
def keepSource (allowed : List (Option String)) (n : PNode) : Bool :=
  allowed.contains n.properties.source

/-- `_apply_filters`: the three stages in their fixed order, each present only
when its key is supplied. -/
def apply_filters (nodes : List PNode) (filters : Filters) : List PNode :=
  let f1 := match filters.valid_until with
    | none => nodes
    | some cutoff => nodes.filter (keepValidUntil cutoff)
  let f2 := match filters.node_types with
    | none => f1
    | some allowed => f1.filter (keepType allowed)
  match filters.sources with
  | none => f2
  | some allowed => f2.filter (keepSource allowed)

/-- The mutable traversal state of `_expand_subgraph`: the insertion-ordered
`subgraph_nodes` dictionary and the appended `subgraph_edges` list. -/
structure ExpandState where
  nodes : List (String × PNode)
  edges : List PEdge
deriving Repr, DecidableEq

/-- Insertion-ordered dictionary update (later bindings overwrite in place). -/
def dictInsert (d : List (String × PNode)) (k : String) (v : PNode) :
    List (String × PNode) :=
  if d.any (fun p => p.1 == k) then d.map (fun p => if p.1 == k then (k, v) else p)
  else d ++ [(k, v)]

/-- The seed dictionary comprehension keyed by node id. -/
def seedDict (seeds : List PNode) : List (String × PNode) :=
  seeds.foldl (fun d n => dictInsert d n.id n) []

def hasKeyB (st : ExpandState) (k : String) : Bool :=
  st.nodes.any (fun p => p.1 == k)

/-- Per-edge step of the expansion: record the edge, then fetch and add the
connected endpoint when it is not yet a key of the node dictionary; a fetch
that returns no node adds nothing, a raising fetch aborts. -/
def processEdge (db : GraphDB) (graph_id node_id : String)
    (acc : ExpandState × List PNode) (edge : PEdge) :
    Except String (ExpandState × List PNode) :=
  let st : ExpandState := ⟨acc.1.nodes, acc.1.edges ++ [edge]⟩
  let connected_id := if edge.source = node_id then edge.target else edge.source
  if hasKeyB st connected_id then .ok (st, acc.2)
  else
    match db.get_node graph_id connected_id with
    | .error e => .error e
    | .ok none => .ok (st, acc.2)
    | .ok (some n) => .ok (⟨st.nodes ++ [(connected_id, n)], st.edges⟩, acc.2 ++ [n])

/-- Per-frontier-node step: fetch the node's incident edges (a raising fetch
aborts), then fold the per-edge step over them. -/
def processNode (db : GraphDB) (graph_id : String)
    (acc : ExpandState × List PNode) (node : PNode) :
    Except String (ExpandState × List PNode) :=
  match db.get_node_edges graph_id node.id with
  | .error e => .error e
  | .ok edges => edges.foldlM (processEdge db graph_id node.id) acc

/-- The `for depth in range(max_depth)` loop with its early exit when the next
frontier comes out empty. -/
def expandLoop (db : GraphDB) (graph_id : String) :
    Nat → List PNode → ExpandState → Except String ExpandState
  | 0, _, st => .ok st
  | d + 1, current, st =>
    match current.foldlM (processNode db graph_id) (st, ([] : List PNode)) with
    | .error e => .error e
    | .ok (st2, next) => if next.isEmpty then .ok st2 else expandLoop db graph_id d next st2

/-- The returned subgraph dictionary: the node mapping and the edge list. -/
structure NSubgraph where
  nodes : List (String × PNode)
  edges : List PEdge
deriving Repr, DecidableEq

/-- `_expand_subgraph`: seed the node dictionary, run the bounded
breadth-first loop, and package the result. -/
def expand_subgraph (db : GraphDB) (graph_id : String) (seed_nodes : List PNode)
    (max_depth : Nat) : Except String NSubgraph :=
  match expandLoop db graph_id max_depth seed_nodes ⟨seedDict seed_nodes, []⟩ with
  | .error e => .error e
  | .ok st => .ok ⟨st.nodes, st.edges⟩

/-- `_validate_subgraph` of the pipeline only normalises missing `nodes` and
`edges` keys; in the typed model both fields always exist, so it is the
identity on the structure. -/
def validate_subgraph_nxo (sg : NSubgraph) : NSubgraph := sg

/-- `get_applicable_subgraph`: concept extraction, seed search, optional
filtering, depth-2 expansion, validation. The unused `context` argument is
omitted. -/
def get_applicable_subgraph (db : GraphDB) (query graph_id : String)
    (filters : Option Filters) : Except String NSubgraph :=
  let query_concepts := extract_query_concepts query
  let relevant_nodes := find_relevant_nodes db graph_id query_concepts
  let relevant_nodes := match filters with
    | none => relevant_nodes
    | some fs => apply_filters relevant_nodes fs
  match expand_subgraph db graph_id relevant_nodes 2 with
  | .error e => .error e
  | .ok sg => .ok (validate_subgraph_nxo sg)

def stKeys (nodes : List (String × PNode)) : List String := nodes.map Prod.fst

/-- Closure over edge endpoints: every recorded edge's `source` and `target`
are keys of the node mapping. -/
def edgeClosed (sg : NSubgraph) : Prop :=
  ∀ e ∈ sg.edges, e.source ∈ stKeys sg.nodes ∧ e.target ∈ stKeys sg.nodes

instance (sg : NSubgraph) : Decidable (edgeClosed sg) := by
  unfold edgeClosed
  exact List.decidableBAll _ sg.edges

end NxoEngine

namespace NxoEngine

theorem except_bind_ok {α β ε : Type} (a : α) (f : α → Except ε β) :
    (Except.ok a >>= f) = f a := rfl

theorem except_bind_error {α β ε : Type} (e : ε) (f : α → Except ε β) :
    ((Except.error e : Except ε α) >>= f) = .error e := rfl

theorem mem_stKeys_dictInsert (d : List (String × PNode)) (k : String) (v : PNode)
    (i : String) : i ∈ stKeys (dictInsert d k v) ↔ i ∈ stKeys d ∨ i = k := by
  unfold dictInsert stKeys
  by_cases h : d.any (fun p => p.1 == k)
  · rw [if_pos h]
    have hk : k ∈ d.map Prod.fst := by
      rcases List.any_eq_true.mp h with ⟨p, hp, hpk⟩
      have hpk2 : p.1 = k := by simpa using hpk
      exact hpk2 ▸ List.mem_map_of_mem Prod.fst hp
    have hkeys : (d.map (fun p => if p.1 == k then (k, v) else p)).map Prod.fst
        = d.map Prod.fst := by
      rw [List.map_map]
      apply List.map_congr_left
      intro p _
      by_cases hpk : p.1 == k
      · have hpk2 : p.1 = k := by simpa using hpk
        simp [hpk, hpk2]
      · have hne : p.1 ≠ k := by simpa using hpk
        simp [hne]
    rw [hkeys]
    constructor
    · exact Or.inl
    · rintro (hi | rfl)
      · exact hi
      · exact hk
  · rw [if_neg h]
    simp

theorem mem_stKeys_seedDict_aux (seeds : List PNode) (d : List (String × PNode))
    (i : String) :
    i ∈ stKeys (seeds.foldl (fun d n => dictInsert d n.id n) d)
      ↔ i ∈ stKeys d ∨ i ∈ seeds.map PNode.id := by
  induction seeds generalizing d with
  | nil => simp
  | cons n ns ih =>
    rw [List.foldl_cons, ih, mem_stKeys_dictInsert]
    simp [or_assoc]

theorem mem_stKeys_seedDict (seeds : List PNode) (i : String) :
    i ∈ stKeys (seedDict seeds) ↔ i ∈ seeds.map PNode.id := by
  unfold seedDict
  rw [mem_stKeys_seedDict_aux]
  simp [stKeys]

theorem expand_subgraph_nil (db : GraphDB) (graph_id : String) (d : Nat) :
    expand_subgraph db graph_id [] d = .ok ⟨[], []⟩ := by
  cases d with
  | zero => rfl
  | succ d => rfl

/-- C4: expansion with `max_depth = 0` returns exactly the seed dictionary —
whose keys are exactly the seed node ids — and zero edges, for every store
client, graph id and seed list. -/
theorem expand_depth_zero (db : GraphDB) (graph_id : String) (seeds : List PNode) :
    expand_subgraph db graph_id seeds 0 = .ok ⟨seedDict seeds, []⟩
    ∧ ∀ i, i ∈ stKeys (seedDict seeds) ↔ i ∈ seeds.map PNode.id :=
  ⟨rfl, fun i => mem_stKeys_seedDict seeds i⟩

theorem apply_filters_nil (fs : Filters) : apply_filters [] fs = [] := by
  obtain ⟨vu, nt, srcs⟩ := fs
  cases vu <;> cases nt <;> cases srcs <;> rfl

/-- C10: a query that is empty or all whitespace yields an empty subgraph with
no error; the result is the same for every store client, so no node-search
call can influence it (none is issued). -/
theorem blank_query_empty_result (db : GraphDB) (query graph_id : String)
    (filters : Option Filters) (h : query = "" ∨ query.trim = "") :
    get_applicable_subgraph db query graph_id filters = .ok ⟨[], []⟩ := by
  have hc : extract_query_concepts query = [] := by
    unfold extract_query_concepts
    rcases h with rfl | h
    · simp
    · simp [h]
  have hr : find_relevant_nodes db graph_id [] = [] := rfl
  cases filters with
  | none =>
    simp [get_applicable_subgraph, hc, hr, expand_subgraph_nil, validate_subgraph_nxo]
  | some fs =>
    simp [get_applicable_subgraph, hc, hr, apply_filters_nil, expand_subgraph_nil,
      validate_subgraph_nxo]

/-- Witness for C10: the empty query on a store client that would fail every
call. -/
theorem blank_query_empty_result_witness :
    get_applicable_subgraph
      ⟨fun _ _ => .error "down", fun _ _ => .error "down", fun _ _ => .error "down"⟩
      "" "g" none = .ok ⟨[], []⟩ :=
  blank_query_empty_result _ "" "g" none (Or.inl rfl)

theorem foldl_frnStep_all_error (db : GraphDB) (graph_id : String)
    (concepts : List String) (acc : List PNode × List String)
    (h : ∀ c, ∃ e, db.search_nodes graph_id c = .error e) :
    concepts.foldl (frnStep db graph_id) acc = acc := by
  induction concepts generalizing acc with
  | nil => rfl
  | cons c cs ih =>
    rcases h c with ⟨e, he⟩
    rw [List.foldl_cons]
    have hstep : frnStep db graph_id acc c = acc := by
      unfold frnStep
      rw [he]
      simp
    rw [hstep, ih]

/-- C7 (amended): an erroring store search during the initial concept/node
search is swallowed per concept (warn and skip); even when every search call
fails, the query pipeline succeeds with the empty subgraph instead of
surfacing the failure. -/
theorem search_errors_swallowed (db : GraphDB) (query graph_id : String)
    (h : ∀ c, ∃ e, db.search_nodes graph_id c = .error e) :
    get_applicable_subgraph db query graph_id none = .ok ⟨[], []⟩ := by
  have hr : find_relevant_nodes db graph_id (extract_query_concepts query) = [] := by
    unfold find_relevant_nodes
    rw [foldl_frnStep_all_error db graph_id _ _ h]
  simp [get_applicable_subgraph, hr, expand_subgraph_nil, validate_subgraph_nxo]

/-- A store client whose node search is unavailable but whose other calls
succeed. -/
def downDB : GraphDB :=
  ⟨fun _ _ => .error "unavailable", fun _ _ => .ok [], fun _ _ => .ok none⟩

/-- C7 (counterexample): with the node search erroring (external store
unavailable), the whole query still returns `ok` with an empty subgraph — the
failure is not surfaced to the caller. -/
theorem search_error_not_surfaced_counterexample :
    downDB.search_nodes "g" "hello" = .error "unavailable"
    ∧ get_applicable_subgraph downDB "hello" "g" none = .ok ⟨[], []⟩ := by
  refine ⟨rfl, ?_⟩
  have hr : find_relevant_nodes downDB "g" (extract_query_concepts "hello") = [] := by
    unfold find_relevant_nodes
    rw [foldl_frnStep_all_error downDB "g" _ _ (fun _ => ⟨"unavailable", rfl⟩)]
  simp [get_applicable_subgraph, hr, expand_subgraph_nil, validate_subgraph_nxo]

/-- Witness for C7: the swallowing theorem instantiated on the unavailable
store. -/
theorem search_errors_swallowed_witness :
    get_applicable_subgraph downDB "hello" "g" none = .ok ⟨[], []⟩ :=
  search_errors_swallowed downDB "hello" "g" (fun _ => ⟨"unavailable", rfl⟩)

/-- C2 (amended): a failing `get_node_edges` fetch during expansion is not
skipped: it aborts the whole expansion, which surfaces the store error
(here: the fetch for the first frontier node at any positive depth). -/
theorem expand_fetch_error_aborts (db : GraphDB) (graph_id : String)
    (n : PNode) (rest : List PNode) (d : Nat) (err : String)
    (h : db.get_node_edges graph_id n.id = .error err) :
    expand_subgraph db graph_id (n :: rest) (d + 1) = .error err := by
  simp [expand_subgraph, expandLoop, List.foldlM_cons, processNode, h,
    except_bind_error]

/-- A store client failing exactly one edge fetch (node `n1`). -/
def failDB : GraphDB :=
  ⟨fun _ _ => .ok [],
   fun _ i => if i = "n1" then .error "unavailable" else .ok [],
   fun _ _ => .ok none⟩

def n1Seed : PNode := ⟨"n1", none, ⟨none, none⟩⟩

def n2Seed : PNode := ⟨"n2", none, ⟨none, none⟩⟩

/-- C2 (counterexample): the store fails the single edge fetch for `n1` and
succeeds everywhere else, yet the whole expansion for seeds `[n1, n2]` aborts
with that error instead of skipping `n1` and continuing with `n2`. -/
theorem expand_single_fetch_failure_counterexample :
    failDB.get_node_edges "g" "n1" = .error "unavailable"
    ∧ failDB.get_node_edges "g" "n2" = .ok []
    ∧ expand_subgraph failDB "g" [n1Seed, n2Seed] 2 = .error "unavailable" :=
  ⟨rfl, rfl, rfl⟩

/-- Witness for C2: the abort theorem instantiated on `failDB`. -/
theorem expand_fetch_error_aborts_witness :
    expand_subgraph failDB "g" [n1Seed, n2Seed] 2 = .error "unavailable" :=
  expand_fetch_error_aborts failDB "g" n1Seed [n2Seed] 1 "unavailable" rfl

/-- The conjunction of the three per-stage predicates, an absent filter key
contributing `true`. -/
def keepAll (fs : Filters) (n : PNode) : Bool :=
  ((match fs.valid_until with | none => true | some c => keepValidUntil c n)
    && (match fs.node_types with | none => true | some a => keepType a n))
    && (match fs.sources with | none => true | some a => keepSource a n)

theorem bool_and_rearrange (a b c : Bool) : (c && (b && a)) = ((a && b) && c) := by
  cases a <;> cases b <;> cases c <;> rfl

theorem apply_filters_eq_filter (nodes : List PNode) (fs : Filters) :
    apply_filters nodes fs = nodes.filter (fun n => keepAll fs n) := by
  obtain ⟨vu, nt, srcs⟩ := fs
  cases vu <;> cases nt <;> cases srcs <;>
    simp only [apply_filters, keepAll, List.filter_filter, Bool.true_and,
      Bool.and_true] <;>
    (first
      | simp
      | (apply List.filter_congr; intro x _;
          first
          | rfl
          | exact Bool.and_comm _ _
          | exact bool_and_rearrange _ _ _))

theorem filter_self_idem (l : List PNode) (p : PNode → Bool) :
    (l.filter p).filter p = l.filter p := by
  rw [List.filter_filter]
  apply List.filter_congr
  intro x _
  exact Bool.and_self (p x)

/-- C8: `FilterPipeline.apply` is idempotent — applying the same filters twice
yields the same node list as applying them once. -/
theorem apply_filters_idempotent (nodes : List PNode) (fs : Filters) :
    apply_filters (apply_filters nodes fs) fs = apply_filters nodes fs := by
  simp only [apply_filters_eq_filter]
  exact filter_self_idem nodes (fun n => keepAll fs n)

/-- Endpoint closure of the traversal state. -/
def closedSt (st : ExpandState) : Prop :=
  ∀ e ∈ st.edges, e.source ∈ stKeys st.nodes ∧ e.target ∈ stKeys st.nodes

theorem hasKeyB_iff (st : ExpandState) (k : String) :
    hasKeyB st k = true ↔ k ∈ stKeys st.nodes := by
  unfold hasKeyB stKeys
  rw [List.any_eq_true]
  constructor
  · rintro ⟨p, hp, hpk⟩
    have hpe : p.1 = k := by simpa using hpk
    exact hpe ▸ List.mem_map_of_mem Prod.fst hp
  · intro hk
    rcases List.mem_map.mp hk with ⟨p, hp, hpk⟩
    exact ⟨p, hp, by simp [hpk]⟩

theorem processEdge_ok (db : GraphDB) (graph_id node_id : String)
    (Hsome : ∀ i, db.get_node graph_id i ≠ .ok none)
    (Hid : ∀ i n, db.get_node graph_id i = .ok (some n) → n.id = i)
    (acc out : ExpandState × List PNode) (e : PEdge)
    (hnid : node_id ∈ stKeys acc.1.nodes)
    (hinc : e.source = node_id ∨ e.target = node_id)
    (hcl : closedSt acc.1) (hlv : ∀ n ∈ acc.2, n.id ∈ stKeys acc.1.nodes)
    (h : processEdge db graph_id node_id acc e = .ok out) :
    closedSt out.1 ∧ (∀ n ∈ out.2, n.id ∈ stKeys out.1.nodes)
      ∧ (∀ k, k ∈ stKeys acc.1.nodes → k ∈ stKeys out.1.nodes) := by
  unfold processEdge at h
  set cid := if e.source = node_id then e.target else e.source with hcid
  have hends_of : ∀ nds : List (String × PNode), cid ∈ stKeys nds → node_id ∈ stKeys nds →
      e.source ∈ stKeys nds ∧ e.target ∈ stKeys nds := by
    intro nds hcm hnm
    by_cases hsrc : e.source = node_id
    · have hct : cid = e.target := by rw [hcid, if_pos hsrc]
      exact ⟨hsrc ▸ hnm, hct ▸ hcm⟩
    · have hcs : cid = e.source := by rw [hcid, if_neg hsrc]
      rcases hinc with hs | ht
      · exact absurd hs hsrc
      · exact ⟨hcs ▸ hcm, ht ▸ hnm⟩
  by_cases hk : hasKeyB ⟨acc.1.nodes, acc.1.edges ++ [e]⟩ cid
  · rw [if_pos hk] at h
    cases h
    have hcm : cid ∈ stKeys acc.1.nodes := (hasKeyB_iff _ _).mp hk
    refine ⟨?_, hlv, fun k hk2 => hk2⟩
    intro e2 he2
    rcases List.mem_append.mp he2 with h2 | h2
    · exact hcl e2 h2
    · have he2e : e2 = e := by simpa using h2
      exact he2e ▸ hends_of acc.1.nodes hcm hnid
  · rw [if_neg hk] at h
    cases hget : db.get_node graph_id cid with
    | error err => rw [hget] at h; cases h
    | ok v =>
      cases v with
      | none => exact absurd hget (Hsome _)
      | some n =>
        rw [hget] at h
        cases h
        have hmono : ∀ k, k ∈ stKeys acc.1.nodes → k ∈ stKeys (acc.1.nodes ++ [(cid, n)]) := by
          intro k hk2
          unfold stKeys at hk2 ⊢
          rw [List.map_append]
          exact List.mem_append_left _ hk2
        have hcm : cid ∈ stKeys (acc.1.nodes ++ [(cid, n)]) := by
          unfold stKeys
          rw [List.map_append]
          exact List.mem_append_right _ (by simp)
        have hends := hends_of (acc.1.nodes ++ [(cid, n)]) hcm (hmono _ hnid)
        refine ⟨?_, ?_, hmono⟩
        · intro e2 he2
          rcases List.mem_append.mp he2 with h2 | h2
          · rcases hcl e2 h2 with ⟨hs, ht⟩
            exact ⟨hmono _ hs, hmono _ ht⟩
          · have he2e : e2 = e := by simpa using h2
            exact he2e ▸ hends
        · intro m hm
          rcases List.mem_append.mp hm with h2 | h2
          · exact hmono _ (hlv m h2)
          · have hmn : m = n := by simpa using h2
            have hnq := Hid _ n hget
            rw [hmn, hnq]
            exact hcm

theorem foldlM_processEdge_ok (db : GraphDB) (graph_id node_id : String)
    (Hsome : ∀ i, db.get_node graph_id i ≠ .ok none)
    (Hid : ∀ i n, db.get_node graph_id i = .ok (some n) → n.id = i) :
    ∀ (edges : List PEdge) (acc out : ExpandState × List PNode),
      (∀ e ∈ edges, e.source = node_id ∨ e.target = node_id) →
      node_id ∈ stKeys acc.1.nodes →
      closedSt acc.1 → (∀ n ∈ acc.2, n.id ∈ stKeys acc.1.nodes) →
      edges.foldlM (processEdge db graph_id node_id) acc = .ok out →
      closedSt out.1 ∧ (∀ n ∈ out.2, n.id ∈ stKeys out.1.nodes)
        ∧ (∀ k, k ∈ stKeys acc.1.nodes → k ∈ stKeys out.1.nodes) := by
  intro edges
  induction edges with
  | nil =>
    intro acc out _ _ hcl hlv h
    rw [List.foldlM_nil] at h
    cases h
    exact ⟨hcl, hlv, fun k hk => hk⟩
  | cons e es ih =>
    intro acc out hincs hnid hcl hlv h
    rw [List.foldlM_cons] at h
    cases hmid : processEdge db graph_id node_id acc e with
    | error err =>
      rw [hmid, except_bind_error] at h
      cases h
    | ok mid =>
      rw [hmid, except_bind_ok] at h
      obtain ⟨hcl2, hlv2, hmono2⟩ :=
        processEdge_ok db graph_id node_id Hsome Hid acc mid e hnid
          (hincs e (by simp)) hcl hlv hmid
      obtain ⟨hcl3, hlv3, hmono3⟩ :=
        ih mid out (fun x hx => hincs x (by simp [hx])) (hmono2 _ hnid) hcl2 hlv2 h
      exact ⟨hcl3, hlv3, fun k hk => hmono3 k (hmono2 k hk)⟩

theorem processNode_ok (db : GraphDB) (graph_id : String)
    (Hsome : ∀ i, db.get_node graph_id i ≠ .ok none)
    (Hid : ∀ i n, db.get_node graph_id i = .ok (some n) → n.id = i)
    (Hinc : ∀ v es, db.get_node_edges graph_id v = .ok es →
      ∀ e ∈ es, e.source = v ∨ e.target = v)
    (acc out : ExpandState × List PNode) (node : PNode)
    (hnid : node.id ∈ stKeys acc.1.nodes)
    (hcl : closedSt acc.1) (hlv : ∀ n ∈ acc.2, n.id ∈ stKeys acc.1.nodes)
    (h : processNode db graph_id acc node = .ok out) :
    closedSt out.1 ∧ (∀ n ∈ out.2, n.id ∈ stKeys out.1.nodes)
      ∧ (∀ k, k ∈ stKeys acc.1.nodes → k ∈ stKeys out.1.nodes) := by
  unfold processNode at h
  cases hes : db.get_node_edges graph_id node.id with
  | error err =>
    rw [hes] at h
    cases h
  | ok edges =>
    rw [hes] at h
    exact foldlM_processEdge_ok db graph_id node.id Hsome Hid edges acc out
      (Hinc node.id edges hes) hnid hcl hlv h

theorem foldlM_processNode_ok (db : GraphDB) (graph_id : String)
    (Hsome : ∀ i, db.get_node graph_id i ≠ .ok none)
    (Hid : ∀ i n, db.get_node graph_id i = .ok (some n) → n.id = i)
    (Hinc : ∀ v es, db.get_node_edges graph_id v = .ok es →
      ∀ e ∈ es, e.source = v ∨ e.target = v) :
    ∀ (level : List PNode) (acc out : ExpandState × List PNode),
      (∀ n ∈ level, n.id ∈ stKeys acc.1.nodes) →
      closedSt acc.1 → (∀ n ∈ acc.2, n.id ∈ stKeys acc.1.nodes) →
      level.foldlM (processNode db graph_id) acc = .ok out →
      closedSt out.1 ∧ (∀ n ∈ out.2, n.id ∈ stKeys out.1.nodes)
        ∧ (∀ k, k ∈ stKeys acc.1.nodes → k ∈ stKeys out.1.nodes) := by
  intro level
  induction level with
  | nil =>
    intro acc out _ hcl hlv h
    rw [List.foldlM_nil] at h
    cases h
    exact ⟨hcl, hlv, fun k hk => hk⟩
  | cons nd lvl ih =>
    intro acc out hlevel hcl hlv h
    rw [List.foldlM_cons] at h
    cases hmid : processNode db graph_id acc nd with
    | error err =>
      rw [hmid, except_bind_error] at h
      cases h
    | ok mid =>
      rw [hmid, except_bind_ok] at h
      obtain ⟨hcl2, hlv2, hmono2⟩ :=
        processNode_ok db graph_id Hsome Hid Hinc acc mid nd
          (hlevel nd (by simp)) hcl hlv hmid
      obtain ⟨hcl3, hlv3, hmono3⟩ :=
        ih mid out (fun x hx => hmono2 _ (hlevel x (by simp [hx]))) hcl2 hlv2 h
      exact ⟨hcl3, hlv3, fun k hk => hmono3 k (hmono2 k hk)⟩

theorem expandLoop_closed (db : GraphDB) (graph_id : String)
    (Hsome : ∀ i, db.get_node graph_id i ≠ .ok none)
    (Hid : ∀ i n, db.get_node graph_id i = .ok (some n) → n.id = i)
    (Hinc : ∀ v es, db.get_node_edges graph_id v = .ok es →
      ∀ e ∈ es, e.source = v ∨ e.target = v) :
    ∀ (depth : Nat) (level : List PNode) (st res : ExpandState),
      closedSt st → (∀ n ∈ level, n.id ∈ stKeys st.nodes) →
      expandLoop db graph_id depth level st = .ok res → closedSt res := by
  intro depth
  induction depth with
  | zero =>
    intro level st res hcl _ h
    cases h
    exact hcl
  | succ d ih =>
    intro level st res hcl hlv h
    unfold expandLoop at h
    cases hfold : level.foldlM (processNode db graph_id) (st, ([] : List PNode)) with
    | error err =>
      rw [hfold] at h
      cases h
    | ok p =>
      rw [hfold] at h
      obtain ⟨st2, next⟩ := p
      dsimp only at h
      obtain ⟨hcl2, hlv2, _⟩ :=
        foldlM_processNode_ok db graph_id Hsome Hid Hinc level (st, []) (st2, next)
          hlv hcl (fun n hn => absurd hn (List.not_mem_nil n)) hfold
      by_cases hne : next.isEmpty
      · rw [if_pos hne] at h
        cases h
        exact hcl2
      · rw [if_neg hne] at h
        exact ih next st2 res hcl2 hlv2 h

/-- C3 (amended): the returned subgraph is closed over edge endpoints provided
the store is consistent: `get_node` never succeeds with no node, a fetched
node carries the id it was fetched by, and `get_node_edges` returns only edges
incident to the queried node. Without the first condition an edge whose far
endpoint lookup returns no node stays in the result with that endpoint absent
from the node mapping. -/
theorem expand_closed_of_consistent_store (db : GraphDB) (graph_id : String)
    (seeds : List PNode) (depth : Nat) (sg : NSubgraph)
    (Hsome : ∀ i, db.get_node graph_id i ≠ .ok none)
    (Hid : ∀ i n, db.get_node graph_id i = .ok (some n) → n.id = i)
    (Hinc : ∀ v es, db.get_node_edges graph_id v = .ok es →
      ∀ e ∈ es, e.source = v ∨ e.target = v)
    (h : expand_subgraph db graph_id seeds depth = .ok sg) :
    edgeClosed sg := by
  unfold expand_subgraph at h
  cases hl : expandLoop db graph_id depth seeds ⟨seedDict seeds, []⟩ with
  | error err =>
    rw [hl] at h
    cases h
  | ok st =>
    rw [hl] at h
    cases h
    have hcl0 : closedSt ⟨seedDict seeds, []⟩ := by
      intro e he
      cases he
    have hlv0 : ∀ n ∈ seeds, n.id ∈ stKeys (seedDict seeds) := by
      intro n hn
      exact (mem_stKeys_seedDict seeds n.id).mpr (List.mem_map_of_mem PNode.id hn)
    have hres := expandLoop_closed db graph_id Hsome Hid Hinc depth seeds
      ⟨seedDict seeds, []⟩ st hcl0 hlv0 hl
    intro e he
    exact hres e he

/-- A store client returning an edge to a node id whose lookup succeeds with
no node. -/
def ghostDB : GraphDB :=
  ⟨fun _ _ => .ok [],
   fun _ i => if i = "n1" then .ok [⟨"n1", "n2"⟩] else .ok [],
   fun _ _ => .ok none⟩

/-- C3 (counterexample): expanding seed `n1` against a store whose `get_node`
lookup for `n2` returns no node yields a result containing the edge
`n1 → n2` while `n2` is not a key of the returned node mapping — the returned
subgraph is not closed over edge endpoints. -/
theorem expand_closure_counterexample :
    expand_subgraph ghostDB "g" [n1Seed] 2
      = .ok ⟨[("n1", n1Seed)], [⟨"n1", "n2"⟩]⟩
    ∧ ¬ edgeClosed ⟨[("n1", n1Seed)], [⟨"n1", "n2"⟩]⟩ :=
  ⟨rfl, by decide⟩

/-- A consistent store client: every node lookup succeeds with a node carrying
the queried id, and edges are incident to the queried node. -/
def goodDB : GraphDB :=
  ⟨fun _ _ => .ok [],
   fun _ i => if i = "n1" then .ok [⟨"n1", "n2"⟩] else .ok [],
   fun _ i => .ok (some ⟨i, none, ⟨none, none⟩⟩)⟩

/-- Witness for C3: the closure theorem instantiated on the consistent store
`goodDB`, seed `n1` and depth 1. -/
theorem expand_closed_witness :
    edgeClosed ⟨[("n1", n1Seed), ("n2", ⟨"n2", none, ⟨none, none⟩⟩)], [⟨"n1", "n2"⟩]⟩ :=
  expand_closed_of_consistent_store goodDB "g" [n1Seed] 1
    ⟨[("n1", n1Seed), ("n2", ⟨"n2", none, ⟨none, none⟩⟩)], [⟨"n1", "n2"⟩]⟩
    (by intro i hbad; simp [goodDB] at hbad)
    (by
      intro i n hn
      simp [goodDB] at hn
      rw [← hn])
    (by
      intro v es hes e he
      by_cases hv : v = "n1"
      · subst hv
        simp [goodDB] at hes
        subst hes
        have he2 : e = ⟨"n1", "n2"⟩ := by simpa using he
        subst he2
        exact Or.inl rfl
      · simp [goodDB, hv] at hes
        subst hes
        cases he)
    rfl
end NxoEngine

namespace SrcVersioning

/-- A version record of the manager: the derived id, the allocated sequence
number, the version-type tag, the creation instant (the wall clock embedded as
a `Nat`) and the metadata mapping. -/
structure VersionData where
  version_id : String
  version_number : Nat
  version_type : String
  created_at : Nat
  metadata : List (String × String)
deriving Repr, DecidableEq

/-- The manager's `self.versions` dictionary; an absent graph id maps to the
empty history (the code inserts `[]` on first use). -/
abbrev VMState := String → List VersionData

def initState : VMState := fun _ => []

/-- `create_version`: allocate `len + 1` as the next sequence number, derive
the version id, stamp the current instant and append to the graph's history. -/
def create_version (st : VMState) (graph_id version_type : String)
    (metadata : List (String × String)) (now : Nat) : String × VMState :=
  let versions := st graph_id
  let version_number := versions.length + 1
  let version_id := graph_id ++ ":v" ++ toString version_number
  let vd : VersionData := ⟨version_id, version_number, version_type, now, metadata⟩
  (version_id, fun g => if g = graph_id then versions ++ [vd] else st g)

/-- One sequential `create_version` call: graph id, version type, metadata and
the clock reading at that call. -/
structure CreateReq where
  graph_id : String
  version_type : String
  metadata : List (String × String)
  now : Nat

/-- A sequential run of `create_version` calls from a starting state. -/
def runCreates (reqs : List CreateReq) (st : VMState) : VMState :=
  reqs.foldl
    (fun s r => (create_version s r.graph_id r.version_type r.metadata r.now).2) st

/-- Every graph's history carries exactly the consecutive sequence numbers
`1, 2, …, length`. -/
def numbersOk (st : VMState) : Prop :=
  ∀ g, (st g).map VersionData.version_number = List.range' 1 (st g).length

theorem create_version_preserves_numbersOk (st : VMState)
    (graph_id version_type : String) (metadata : List (String × String)) (now : Nat)
    (h : numbersOk st) :
    numbersOk (create_version st graph_id version_type metadata now).2 := by
  intro g
  unfold create_version
  dsimp only
  by_cases hg : g = graph_id
  · subst hg
    rw [if_pos rfl, List.map_append, h g]
    simp [List.range'_concat, Nat.add_comm]
  · simp only [if_neg hg]
    exact h g

theorem runCreates_numbersOk (reqs : List CreateReq) (st : VMState)
    (h : numbersOk st) : numbersOk (runCreates reqs st) := by
  induction reqs generalizing st with
  | nil => exact h
  | cons r rs ih =>
    unfold runCreates
    rw [List.foldl_cons]
    exact ih _ (create_version_preserves_numbersOk st r.graph_id r.version_type
      r.metadata r.now h)

/-- C5: sequence numbers are allocated as consecutive integers starting at 1
(hence strictly increasing and never reused within one graph's history) after
every sequential run of `create_version` calls; three calls for `"g1"` at
strictly increasing clock readings yield version numbers `1, 2, 3` with
strictly increasing `created_at`. -/
theorem version_numbers_consecutive :
    (∀ reqs : List CreateReq, numbersOk (runCreates reqs initState))
    ∧ (∀ t1 t2 t3 : Nat, t1 < t2 → t2 < t3 →
        ((runCreates [⟨"g1", "temporal", [], t1⟩, ⟨"g1", "temporal", [], t2⟩,
            ⟨"g1", "temporal", [], t3⟩] initState) "g1").map VersionData.version_number
          = [1, 2, 3]
        ∧ List.Chain' (· < ·)
            (((runCreates [⟨"g1", "temporal", [], t1⟩, ⟨"g1", "temporal", [], t2⟩,
                ⟨"g1", "temporal", [], t3⟩] initState) "g1").map VersionData.created_at)) := by
  constructor
  · intro reqs
    exact runCreates_numbersOk reqs initState (fun g => rfl)
  · intro t1 t2 t3 h12 h23
    refine ⟨rfl, ?_⟩
    have hmap : ((runCreates [⟨"g1", "temporal", [], t1⟩, ⟨"g1", "temporal", [], t2⟩,
        ⟨"g1", "temporal", [], t3⟩] initState) "g1").map VersionData.created_at
        = [t1, t2, t3] := rfl
    rw [hmap]
    exact List.chain'_cons.mpr ⟨h12, List.chain'_cons.mpr ⟨h23, List.chain'_singleton t3⟩⟩

/-- Witness for C5: three creations at instants 0, 1, 2. -/
theorem version_numbers_consecutive_witness :
    ((runCreates [⟨"g1", "temporal", [], 0⟩, ⟨"g1", "temporal", [], 1⟩,
        ⟨"g1", "temporal", [], 2⟩] initState) "g1").map VersionData.version_number
      = [1, 2, 3] :=
  (version_numbers_consecutive.2 0 1 2 (by decide) (by decide)).1

/-- `get_version`: exact match on an explicit id, or the most recently
appended version when the id is omitted (an unknown graph has the empty
history, so both lookups yield `none` exactly as the code's early return). -/
def get_version (st : VMState) (graph_id : String) (version_id : Option String) :
    Option VersionData :=
  let versions := st graph_id
  match version_id with
  | some vid => versions.find? (fun v => v.version_id == vid)
  | none => versions.getLast?

def lookupMD (md : List (String × String)) (k : String) : Option String :=
  (md.find? (fun p => p.1 == k)).map Prod.snd

/-- The iterated key set `set(metadata_1) | set(metadata_2)` (the Python set
iteration order is unspecified; a canonical order is fixed here — the claims
only concern emptiness). -/
def mdKeys (m1 m2 : List (String × String)) : List String :=
  (m1.map Prod.fst ++ m2.map Prod.fst).dedup

/-- Classification of one metadata key: added (absent from the first),
removed (absent from the second) or changed (different values). -/
def diffForKey (m1 m2 : List (String × String)) (k : String) : Option String :=
  match lookupMD m1 k, lookupMD m2 k with
  | none, _ => some ("Added metadata key: " ++ k)
  | some _, none => some ("Removed metadata key: " ++ k)
  | some a, some b => if a = b then none else some ("Changed metadata key: " ++ k)

/-- `_calculate_differences`: classify every key present in either metadata
mapping, omitting keys with equal values. -/
def calculate_differences (v1 v2 : VersionData) : List String :=
  (mdKeys v1.metadata v2.metadata).filterMap (diffForKey v1.metadata v2.metadata)

/-- `compare_versions` of the manager: an error result when either version is
missing, otherwise both records plus their metadata differences. -/
def compare_versions_mgr (st : VMState) (graph_id version_id_1 version_id_2 : String) :
    Except String (VersionData × VersionData × List String) :=
  match get_version st graph_id (some version_id_1),
      get_version st graph_id (some version_id_2) with
  | some v1, some v2 => .ok (v1, v2, calculate_differences v1 v2)
  | _, _ => .error "One or both versions not found"

theorem diffForKey_self (md : List (String × String)) (k : String)
    (hk : k ∈ md.map Prod.fst) : diffForKey md md k = none := by
  have h1 : (md.find? (fun p => p.1 == k)).isSome = true := by
    rw [List.find?_isSome]
    rcases List.mem_map.mp hk with ⟨p, hp, hpk⟩
    exact ⟨p, hp, by simp [hpk]⟩
  obtain ⟨p, hp⟩ := Option.isSome_iff_exists.mp h1
  unfold diffForKey lookupMD
  rw [hp]
  simp

theorem calculate_differences_self (v : VersionData) :
    calculate_differences v v = [] := by
  unfold calculate_differences
  rw [List.filterMap_eq_nil_iff]
  intro k hk
  apply diffForKey_self
  unfold mdKeys at hk
  rw [List.mem_dedup, List.mem_append] at hk
  rcases hk with h | h <;> exact h

end SrcVersioning

namespace NxoVersioning

/-- A stored version record of the nxo version manager. -/
structure VersionRec where
  version_id : String
  graph_id : String
  created_at : Nat
  metadata : List (String × String)
deriving Repr, DecidableEq

/-- The comparison dictionary returned by `compare_versions`. -/
structure CompareResult where
  version_1 : String
  version_2 : String
  identical : Bool
  added_nodes : List String
  removed_nodes : List String
  modified_nodes : List String
  added_edges : List String
  removed_edges : List String
deriving Repr, DecidableEq

/-- The explicit identical result with all difference lists empty. -/
def identicalResult (v1 v2 : String) : CompareResult :=
  ⟨v1, v2, true, [], [], [], [], []⟩

/-- `compare_versions` of the nxo manager over its version storage: equal ids
short-circuit to the identical result; otherwise both versions are fetched and
a missing one raises a not-found `ValueError` (the placeholder comparison for
two existing distinct versions has empty lists and `identical = False`). -/
def compare_versions (storage : String → Option VersionRec)
    (version_id_1 version_id_2 : String) : Except String CompareResult :=
  if version_id_1 = version_id_2 then .ok (identicalResult version_id_1 version_id_2)
  else
    match storage version_id_1, storage version_id_2 with
    | none, _ => .error ("Version " ++ version_id_1 ++ " not found")
    | some _, none => .error ("Version " ++ version_id_2 ++ " not found")
    | some _, some _ => .ok ⟨version_id_1, version_id_2, false, [], [], [], [], []⟩

end NxoVersioning

/-- C9 (amended): the nxo `compare_versions` returns the explicit identical
result with all difference lists empty whenever the two supplied ids are equal
— without checking existence, so also for a missing id; when the ids differ, a
missing version makes it fail with a not-found error. The manager variant
signals a missing version by an error result and yields an empty differences
list when comparing an existing version with itself. -/
theorem compare_versions_semantics :
    (∀ (storage : String → Option NxoVersioning.VersionRec) (v : String),
      NxoVersioning.compare_versions storage v v
        = .ok (NxoVersioning.identicalResult v v))
    ∧ (∀ (storage : String → Option NxoVersioning.VersionRec) (a b : String),
        a ≠ b → storage a = none →
        NxoVersioning.compare_versions storage a b
          = .error ("Version " ++ a ++ " not found"))
    ∧ (∀ (storage : String → Option NxoVersioning.VersionRec) (a b : String)
        (r : NxoVersioning.VersionRec), a ≠ b → storage a = some r → storage b = none →
        NxoVersioning.compare_versions storage a b
          = .error ("Version " ++ b ++ " not found"))
    ∧ (∀ (st : SrcVersioning.VMState) (g vid : String) (v : SrcVersioning.VersionData),
        SrcVersioning.get_version st g (some vid) = some v →
        SrcVersioning.compare_versions_mgr st g vid vid = .ok (v, v, []))
    ∧ (∀ (st : SrcVersioning.VMState) (g a b : String),
        SrcVersioning.get_version st g (some a) = none
          ∨ SrcVersioning.get_version st g (some b) = none →
        SrcVersioning.compare_versions_mgr st g a b
          = .error "One or both versions not found") := by
  refine ⟨?_, ?_, ?_, ?_, ?_⟩
  · intro storage v
    unfold NxoVersioning.compare_versions
    rw [if_pos rfl]
  · intro storage a b hne ha
    unfold NxoVersioning.compare_versions
    rw [if_neg hne, ha]
  · intro storage a b r hne ha hb
    unfold NxoVersioning.compare_versions
    rw [if_neg hne, ha, hb]
  · intro st g vid v hv
    unfold SrcVersioning.compare_versions_mgr
    rw [hv]
    dsimp only
    rw [SrcVersioning.calculate_differences_self]
  · intro st g a b hmiss
    unfold SrcVersioning.compare_versions_mgr
    rcases hmiss with ha | hb
    · rw [ha]
    · cases h1 : SrcVersioning.get_version st g (some a) with
      | none => rfl
      | some v1 => rw [hb]

/-- C9 (counterexample): comparing a version id that does not exist in the
store with itself returns the identical result, not a not-found failure. -/
theorem compare_missing_identical_counterexample :
    ((fun _ => none : String → Option NxoVersioning.VersionRec) "vX" = none)
    ∧ NxoVersioning.compare_versions (fun _ => none) "vX" "vX"
        = .ok (NxoVersioning.identicalResult "vX" "vX") :=
  ⟨rfl, rfl⟩

/-- A one-version manager state for graph `"g"`. -/
def wVD : SrcVersioning.VersionData := ⟨"g:v1", 1, "temporal", 0, [("k", "x")]⟩

def wState : SrcVersioning.VMState := fun g => if g = "g" then [wVD] else []

/-- Witness for C9: the manager's self comparison of the existing version
`g:v1` yields both records with an empty differences list. -/
theorem compare_versions_semantics_witness :
    SrcVersioning.compare_versions_mgr wState "g" "g:v1" "g:v1" = .ok (wVD, wVD, []) :=
  compare_versions_semantics.2.2.2.1 wState "g" "g:v1" wVD (by rfl)
